import Mathlib

/-!
# Verification of the compiler-tokenizer scanner (`src/main.cpp`)

Shallow embedding of the C-like-language tokenizer. The input buffer is a
sequence of 8-bit code units, modelled as `List Nat`; character classification
follows the C standard library in the default "C" locale (the code calls
`isspace`/`isdigit`/`isalpha`/`isalnum` through `static_cast<unsigned char>`).
Every definition is translated from `src/main.cpp`; line numbers in doc
comments refer to that file.
-/

namespace Tokenizer

/-- `TokenType` enum (main.cpp lines 13-22). -/
inductive TokenType where
  | Keyword
  | Identifier
  | Number
  | Operator
  | Delimiter
  | String
  | Char
  | Unknown
deriving DecidableEq, Repr

/-- `Token` struct (main.cpp lines 38-42): lexeme, type and 1-based line. -/
structure Token where
  lexeme : List Nat
  type : TokenType
  line : Nat
deriving DecidableEq, Repr

/-- Byte values of a string of ASCII characters (inputs and the fixed
keyword/operator tables are all ASCII). -/
def str (s : String) : List Nat :=
  s.toList.map (fun c => c.toNat)

/-- C `isdigit` in the default locale: `'0'..'9'` (bytes 48-57). -/
def isdigit (c : Nat) : Bool :=
  decide (48 ≤ c ∧ c ≤ 57)

/-- C `isalpha` in the default locale: `'A'..'Z'` or `'a'..'z'`. -/
def isalpha (c : Nat) : Bool :=
  decide ((65 ≤ c ∧ c ≤ 90) ∨ (97 ≤ c ∧ c ≤ 122))

/-- C `isalnum` in the default locale. -/
def isalnum (c : Nat) : Bool :=
  isalpha c || isdigit c

/-- C `isspace` in the default locale: space (32) and `\t \n \v \f \r`
(bytes 9-13). -/
def isspace (c : Nat) : Bool :=
  decide (c = 32 ∨ (9 ≤ c ∧ c ≤ 13))

/-- The fixed keyword table of `isKeyword` (main.cpp lines 46-58). -/
def keywordList : List (List Nat) :=
  [str "int", str "float", str "double", str "char", str "long", str "short",
   str "bool", str "void",
   str "if", str "else", str "for", str "while", str "do", str "return",
   str "switch", str "case", str "break", str "continue",
   str "class", str "struct", str "public", str "private", str "protected",
   str "include", str "namespace", str "using"]

/-- `isKeyword` (main.cpp lines 46-58): exact membership in the fixed set. -/
def isKeyword (s : List Nat) : Bool :=
  decide (s ∈ keywordList)

/-- `isDelimiter` (main.cpp lines 60-63): membership in `";,(){}[]"`,
written here as the byte values 59 44 40 41 123 125 91 93. -/
def isDelimiter (c : Nat) : Bool :=
  decide (c ∈ [59, 44, 40, 41, 123, 125, 91, 93])

/-- The fixed operator table of `isOperatorString` (main.cpp lines 66-76). -/
def operatorList : List (List Nat) :=
  [str "<<=", str ">>=",
   str "==", str "!=", str "<=", str ">=", str "++", str "--", str "+=",
   str "-=", str "*=", str "/=", str "%=", str "<<", str ">>",
   str "&&", str "||",
   str "+", str "-", str "*", str "/", str "%", str "=", str "<", str ">",
   str "!", str "&", str "|", str "^", str "~"]

/-- `isOperatorString` (main.cpp lines 66-76). -/
def isOperatorString (s : List Nat) : Bool :=
  decide (s ∈ operatorList)

/-- `peekChar` (main.cpp lines 81-84), relative to a suffix of the buffer:
the byte at offset `k`, or 0 (`'\0'`) past the end. -/
def peekList (s : List Nat) (k : Nat) : Nat :=
  s.getD k 0

/-- Closing-quote step of `parseCharLiteral` (main.cpp lines 118-122):
consume a `'` (byte 39) if it is next. -/
def charClose (lex : List Nat) (s : List Nat) (line : Nat) :
    List Nat × List Nat × Nat :=
  match s with
  | c :: rest => if c = 39 then (lex ++ [c], rest, line) else (lex, c :: rest, line)
  | [] => (lex, [], line)

/-- `parseCharLiteral` (main.cpp lines 88-125), on the buffer suffix whose
head is the opening quote. Returns (lexeme, remaining buffer, line). Byte 92
is `\`, 10 is `\n`, 39 is `'`. -/
def parseCharLiteral (s : List Nat) (line : Nat) : List Nat × List Nat × Nat :=
  match s with
  | [] => ([], [], line)
  | q :: rest =>
    match rest with
    | [] => ([q], [], line)
    | c :: rest2 =>
      if c = 92 then
        match rest2 with
        | [] => ([q, c], [], line)
        | d :: rest3 => charClose [q, c, d] rest3 line
      else if c = 10 then
        charClose [q, c] rest2 (line + 1)
      else
        charClose [q, c] rest2 line

/-- Body loop of `parseStringLiteral` (main.cpp lines 134-148). -/
def parseStringLoop (lex : List Nat) (s : List Nat) (line : Nat) :
    List Nat × List Nat × Nat :=
  match s with
  | [] => (lex, [], line)
  | c :: rest =>
    if c = 92 then
      match rest with
      | [] => (lex ++ [c], [], line)
      | d :: rest2 => parseStringLoop (lex ++ [c, d]) rest2 line
    else if c = 34 then (lex ++ [c], rest, line)
    else if c = 10 then parseStringLoop (lex ++ [c]) rest (line + 1)
    else parseStringLoop (lex ++ [c]) rest line

/-- `parseStringLiteral` (main.cpp lines 128-151), on the buffer suffix whose
head is the opening `"` (byte 34). -/
def parseStringLiteral (s : List Nat) (line : Nat) : List Nat × List Nat × Nat :=
  match s with
  | [] => ([], [], line)
  | q :: rest => parseStringLoop [q] rest line

/-- Exponent block of `parseNumber` (main.cpp lines 179-198). `lex` is the
lexeme built so far, `s2` the buffer at the would-be exponent marker. On a
marker (`e` = 101 or `E` = 69) the marker and an optional sign (43/45) are
speculatively consumed; if no digit follows, the cursor returns to `save`
(before the marker) and `lexeme.erase(lexeme.size() - 1)` removes the single
last character of the lexeme. -/
def parseNumberExp (lex : List Nat) (s2 : List Nat) : List Nat × List Nat :=
  match s2 with
  | [] => (lex, [])
  | c :: r =>
    if c = 101 ∨ c = 69 then
      let signed : List Nat × List Nat :=
        match r with
        | [] => (lex ++ [c], [])
        | d :: rr => if d = 43 ∨ d = 45 then (lex ++ [c, d], rr) else (lex ++ [c], d :: rr)
      let expDigits := signed.2.takeWhile isdigit
      if expDigits = [] then
        (signed.1.dropLast, c :: r)
      else
        (signed.1 ++ expDigits, signed.2.dropWhile isdigit)
    else (lex, c :: r)

/-- Fractional block of `parseNumber` (main.cpp lines 167-176): an optional
`.` (byte 46) followed by a digit run, then the exponent block. -/
def parseNumberFrac (lex : List Nat) (s1 : List Nat) : List Nat × List Nat :=
  match s1 with
  | [] => parseNumberExp lex []
  | c :: r =>
    if c = 46 then
      parseNumberExp (lex ++ [c] ++ r.takeWhile isdigit) (r.dropWhile isdigit)
    else parseNumberExp lex (c :: r)

/-- `parseNumber` (main.cpp lines 154-202): integer digit run, fractional
block, exponent block. Returns (lexeme, remaining buffer). -/
def parseNumber (s : List Nat) : List Nat × List Nat :=
  parseNumberFrac (s.takeWhile isdigit) (s.dropWhile isdigit)

/-- `c` may appear in an identifier body (main.cpp line 257):
alphanumeric or `_` (byte 95). -/
def isIdentChar (c : Nat) : Bool :=
  isalnum c || c == 95

/-- Block-comment skip loop (main.cpp lines 232-236), on the buffer suffix
just past the opening `/*`. Stops after consuming a `*/` pair (42, 47), or
with fewer than two bytes left; `\n` bumps the line counter. -/
def skipBlockComment (s : List Nat) (line : Nat) : List Nat × Nat :=
  match s with
  | c1 :: c2 :: rest =>
    if c1 = 42 ∧ c2 = 47 then (rest, line)
    else skipBlockComment (c2 :: rest) (if c1 = 10 then line + 1 else line)
  | s => (s, line)

/-- Operator window of length `len` starting at the cursor (main.cpp lines
279-284): the inner loop clears the candidate and breaks as soon as
`peekChar` yields `'\0'`, so the window is empty whenever fewer than `len`
bytes remain or a 0 byte occurs among them. -/
def opWindow (rest : List Nat) (len : Nat) : List Nat :=
  if len ≤ rest.length ∧ (rest.take len).all (fun x => x != 0) then rest.take len
  else []

/-- Longest-match operator search (main.cpp lines 277-291): try window
lengths 3, 2, 1 in that order; succeed on the first non-empty window that is
in the operator table. -/
def tryOp (rest : List Nat) : Option (List Nat) :=
  let w3 := opWindow rest 3
  if w3 ≠ [] ∧ isOperatorString w3 then some w3
  else
    let w2 := opWindow rest 2
    if w2 ≠ [] ∧ isOperatorString w2 then some w2
    else
      let w1 := opWindow rest 1
      if w1 ≠ [] ∧ isOperatorString w1 then some w1 else none

/-- Tail of each loop iteration (main.cpp lines 277-303): operator
longest-match, then delimiter, then the Unknown fallback. `c` is the byte
read at the top of the iteration (the C++ `c`, used for the delimiter test
and the one-character lexeme), `rest` the buffer at the current cursor. -/
def opDelimUnknown (c : Nat) (rest : List Nat) (line : Nat) :
    Option Token × List Nat × Nat :=
  match tryOp rest with
  | some w => (some { lexeme := w, type := TokenType.Operator, line := line },
               rest.drop w.length, line)
  | none =>
    if isDelimiter c then
      (some { lexeme := [c], type := TokenType.Delimiter, line := line },
       rest.drop 1, line)
    else
      (some { lexeme := [c], type := TokenType.Unknown, line := line },
       rest.drop 1, line)

/-- One iteration of the `tokenize` while loop (main.cpp lines 211-304),
with `c` the byte at the cursor and `r` the rest of the buffer. Returns the
emitted token (if any), the buffer at the new cursor, and the new line
counter. The branches appear in the source's dispatch order. -/
def tokenizeStep (c : Nat) (r : List Nat) (line : Nat) :
    Option Token × List Nat × Nat :=
  if isspace c then
    (none, r, if c = 10 then line + 1 else line)
  else if c = 47 ∧ peekList r 0 = 47 then
    (none, (r.drop 1).dropWhile (fun x => x != 10), line)
  else if c = 47 ∧ peekList r 0 = 42 then
    let p := skipBlockComment (r.drop 1) line
    (none, p.1, p.2)
  else if c = 39 then
    let p := parseCharLiteral (c :: r) line
    (some { lexeme := p.1, type := TokenType.Char, line := p.2.2 }, p.2.1, p.2.2)
  else if c = 34 then
    let p := parseStringLiteral (c :: r) line
    (some { lexeme := p.1, type := TokenType.String, line := p.2.2 }, p.2.1, p.2.2)
  else if isalpha c || c == 95 then
    let id := (c :: r).takeWhile isIdentChar
    (some { lexeme := id,
            type := if isKeyword id then TokenType.Keyword else TokenType.Identifier,
            line := line },
     (c :: r).dropWhile isIdentChar, line)
  else if isdigit c || (c == 46 && isdigit (peekList r 0)) then
    let p := parseNumber (c :: r)
    if p.1 ≠ [] ∧ p.1.any isdigit then
      (some { lexeme := p.1, type := TokenType.Number, line := line }, p.2, line)
    else
      opDelimUnknown c p.2 line
  else opDelimUnknown c (c :: r) line

/-- Fuel-indexed unfolding of the scan loop; `tokenizeFuel_eq` below shows
that `s.length` fuel computes the loop exactly (each iteration consumes at
least one byte). -/
def tokenizeFuel : Nat → List Nat → Nat → List Token
  | 0, _, _ => []
  | _ + 1, [], _ => []
  | fuel + 1, c :: r, line =>
    let p := tokenizeStep c r line
    (match p.1 with
     | some t => [t]
     | none => []) ++ tokenizeFuel fuel p.2.1 p.2.2

theorem length_dropWhile_le (p : Nat → Bool) (l : List Nat) :
    (l.dropWhile p).length ≤ l.length := by
  induction l with
  | nil => simp [List.dropWhile]
  | cons a l ih =>
    by_cases h : p a
    · simp only [List.dropWhile, h]
      exact le_trans ih (by simp)
    · simp [List.dropWhile, h]

theorem length_takeWhile_le (p : Nat → Bool) (l : List Nat) :
    (l.takeWhile p).length ≤ l.length := by
  induction l with
  | nil => simp [List.takeWhile]
  | cons a l ih =>
    by_cases h : p a
    · simp only [List.takeWhile, h]
      simpa using ih
    · simp [List.takeWhile, h]

theorem charClose_rest_length (lex s : List Nat) (line : Nat) :
    ((charClose lex s line).2.1).length ≤ s.length := by
  unfold charClose
  cases s with
  | nil => simp
  | cons c rest =>
    by_cases h : c = 39 <;> simp [h]

theorem parseCharLiteral_rest_length (q : Nat) (rest : List Nat) (line : Nat) :
    ((parseCharLiteral (q :: rest) line).2.1).length ≤ rest.length := by
  cases rest with
  | nil => simp [parseCharLiteral]
  | cons c rest2 =>
    by_cases h92 : c = 92
    · subst h92
      cases rest2 with
      | nil => simp [parseCharLiteral]
      | cons d rest3 =>
        have h1 := charClose_rest_length [q, 92, d] rest3 line
        simp only [parseCharLiteral, List.length_cons]
        norm_num
        omega
    · by_cases h10 : c = 10
      · subst h10
        have h1 := charClose_rest_length [q, 10] rest2 (line + 1)
        simp only [parseCharLiteral, List.length_cons]
        norm_num
        omega
      · have h1 := charClose_rest_length [q, c] rest2 line
        simp only [parseCharLiteral, List.length_cons, if_neg h92, if_neg h10]
        omega

theorem parseStringLoop_cons (lex : List Nat) (c : Nat) (rest : List Nat) (line : Nat) :
    parseStringLoop lex (c :: rest) line =
      if c = 92 then
        match rest with
        | [] => (lex ++ [c], [], line)
        | d :: rest2 => parseStringLoop (lex ++ [c, d]) rest2 line
      else if c = 34 then (lex ++ [c], rest, line)
      else if c = 10 then parseStringLoop (lex ++ [c]) rest (line + 1)
      else parseStringLoop (lex ++ [c]) rest line := by
  cases rest <;> rfl

theorem parseStringLoop_rest_length (lex s : List Nat) (line : Nat) :
    ((parseStringLoop lex s line).2.1).length ≤ s.length := by
  induction lex, s, line using parseStringLoop.induct with
  | case1 lex line => simp [parseStringLoop]
  | case2 lex line => simp [parseStringLoop]
  | case3 lex line d rest3 ih =>
    rw [parseStringLoop_cons]
    simp only [List.length_cons]
    norm_num
    omega
  | case4 lex line rest3 h =>
    rw [parseStringLoop_cons]
    simp only [List.length_cons]
    norm_num
  | case5 lex line rest3 h1 h2 ih =>
    rw [parseStringLoop_cons]
    simp only [List.length_cons]
    norm_num
    omega
  | case6 lex line d rest3 h1 h2 h3 ih =>
    rw [parseStringLoop_cons, if_neg h1, if_neg h2, if_neg h3]
    simp only [List.length_cons]
    omega

theorem parseStringLiteral_rest_length (q : Nat) (rest : List Nat) (line : Nat) :
    ((parseStringLiteral (q :: rest) line).2.1).length ≤ rest.length := by
  simpa [parseStringLiteral] using parseStringLoop_rest_length [q] rest line

theorem parseNumberExp_rest_length (lex s2 : List Nat) :
    ((parseNumberExp lex s2).2).length ≤ s2.length := by
  cases s2 with
  | nil => simp [parseNumberExp]
  | cons c r =>
    by_cases hm : c = 101 ∨ c = 69
    · simp only [parseNumberExp, if_pos hm]
      cases r with
      | nil => simp
      | cons d rr =>
        by_cases hs : d = 43 ∨ d = 45
        · simp only [if_pos hs]
          by_cases he : rr.takeWhile isdigit = []
          · simp [he]
          · simp only [if_neg he, List.length_cons]
            have h1 := length_dropWhile_le isdigit rr
            omega
        · simp only [if_neg hs]
          by_cases he : (d :: rr).takeWhile isdigit = []
          · simp [he]
          · simp only [if_neg he, List.length_cons]
            have h1 := length_dropWhile_le isdigit (d :: rr)
            simp only [List.length_cons] at h1
            omega
    · simp [parseNumberExp, hm]

theorem parseNumberFrac_rest_length (lex s1 : List Nat) :
    ((parseNumberFrac lex s1).2).length ≤ s1.length := by
  cases s1 with
  | nil => simpa [parseNumberFrac] using parseNumberExp_rest_length lex []
  | cons c r =>
    by_cases h : c = 46
    · subst h
      have h1 := parseNumberExp_rest_length (lex ++ [46] ++ r.takeWhile isdigit)
        (r.dropWhile isdigit)
      have h2 := length_dropWhile_le isdigit r
      simp only [parseNumberFrac, eq_self_iff_true, if_true]
      simp only [List.length_cons]
      omega
    · have h1 := parseNumberExp_rest_length lex (c :: r)
      simp only [parseNumberFrac, if_neg h]
      exact h1

/-- When the numeric branch is entered (digit at the cursor, or `.` followed
by a digit), `parseNumber` consumes at least the byte at the cursor. -/
theorem parseNumber_entry_rest_length (c : Nat) (r : List Nat)
    (h : isdigit c = true ∨ (c = 46 ∧ isdigit (peekList r 0) = true)) :
    ((parseNumber (c :: r)).2).length ≤ r.length := by
  rcases h with hd | ⟨hc, _⟩
  · unfold parseNumber
    rw [List.takeWhile_cons_of_pos hd, List.dropWhile_cons_of_pos hd]
    have h1 := parseNumberFrac_rest_length (c :: r.takeWhile isdigit)
      (r.dropWhile isdigit)
    have h2 := length_dropWhile_le isdigit r
    omega
  · subst hc
    have h46 : isdigit 46 = false := by decide
    have h1 := parseNumberExp_rest_length ([] ++ [46] ++ r.takeWhile isdigit)
      (r.dropWhile isdigit)
    have h2 := length_dropWhile_le isdigit r
    unfold parseNumber
    rw [List.takeWhile_cons_of_neg (by simp [h46]), List.dropWhile_cons_of_neg (by simp [h46])]
    show ((parseNumberExp ([] ++ [46] ++ r.takeWhile isdigit) (r.dropWhile isdigit)).2).length
      ≤ r.length
    omega

theorem skipBlockComment_rest_length (s : List Nat) (line : Nat) :
    ((skipBlockComment s line).1).length ≤ s.length := by
  induction s, line using skipBlockComment.induct with
  | case1 line c1 c2 rest h =>
    obtain ⟨ha, hb⟩ := h
    subst ha
    subst hb
    simp [skipBlockComment]
    omega
  | case2 line c1 c2 rest h ih =>
    simp only [skipBlockComment, if_neg h]
    simp only [List.length_cons] at ih ⊢
    omega
  | case3 line s h =>
    cases s with
    | nil => simp [skipBlockComment]
    | cons a t =>
      cases t with
      | nil => simp [skipBlockComment]
      | cons b u => exact (h a b u rfl).elim

/-- A non-empty operator window of length `len` is exactly the first `len`
bytes of the buffer. -/
theorem opWindow_ne_nil (rest : List Nat) (len : Nat) (h : opWindow rest len ≠ []) :
    opWindow rest len = rest.take len ∧ len ≤ rest.length ∧
      (opWindow rest len).length = len := by
  by_cases hc : len ≤ rest.length ∧ ((rest.take len).all fun x => x != 0) = true
  · unfold opWindow
    rw [if_pos hc]
    refine ⟨rfl, hc.1, ?_⟩
    simp [List.length_take]
    omega
  · exfalso
    apply h
    unfold opWindow
    rw [if_neg hc]

/-- A successful longest-match search returns a non-empty prefix of the
buffer of length at most 3. -/
theorem tryOp_some (rest w : List Nat) (h : tryOp rest = some w) :
    w ≠ [] ∧ w.length ≤ 3 ∧ w = rest.take w.length := by
  unfold tryOp at h
  by_cases h3 : opWindow rest 3 ≠ [] ∧ isOperatorString (opWindow rest 3) = true
  · rw [if_pos h3] at h
    obtain ⟨he, _, hl⟩ := opWindow_ne_nil rest 3 h3.1
    cases h
    refine ⟨h3.1, ?_, ?_⟩
    · omega
    · rw [hl, he]
  · rw [if_neg h3] at h
    by_cases h2 : opWindow rest 2 ≠ [] ∧ isOperatorString (opWindow rest 2) = true
    · rw [if_pos h2] at h
      obtain ⟨he, _, hl⟩ := opWindow_ne_nil rest 2 h2.1
      cases h
      refine ⟨h2.1, ?_, ?_⟩
      · omega
      · rw [hl, he]
    · rw [if_neg h2] at h
      by_cases h1 : opWindow rest 1 ≠ [] ∧ isOperatorString (opWindow rest 1) = true
      · rw [if_pos h1] at h
        obtain ⟨he, _, hl⟩ := opWindow_ne_nil rest 1 h1.1
        cases h
        refine ⟨h1.1, ?_, ?_⟩
        · omega
        · rw [hl, he]
      · rw [if_neg h1] at h
        cases h

theorem opDelimUnknown_rest_length (c : Nat) (rest : List Nat) (line : Nat) :
    ((opDelimUnknown c rest line).2.1).length ≤ rest.length := by
  unfold opDelimUnknown
  split
  · next w h =>
    simp [List.length_drop]
  · split <;> simp [List.length_drop]

/-- At the top-level operator/delimiter/unknown dispatch the cursor strictly
advances: some operator match is non-empty, and the delimiter and unknown
branches advance by one. -/
theorem opDelimUnknown_cons_rest_length (c c0 : Nat) (r : List Nat) (line : Nat) :
    ((opDelimUnknown c (c0 :: r) line).2.1).length ≤ r.length := by
  unfold opDelimUnknown
  split
  · next w h =>
    obtain ⟨hne, _, _⟩ := tryOp_some (c0 :: r) w h
    have : 1 ≤ w.length := List.length_pos.mpr hne
    simp only [List.length_drop, List.length_cons]
    omega
  · split <;> simp [List.length_drop]

/-- Forward progress of a single loop iteration: the returned buffer is no
longer than the buffer after the byte read at the top of the iteration. -/
theorem tokenizeStep_rest_length (c : Nat) (r : List Nat) (line : Nat) :
    ((tokenizeStep c r line).2.1).length ≤ r.length := by
  unfold tokenizeStep
  split
  · simp
  · split
    · have h1 := length_dropWhile_le (fun x => x != 10) (r.drop 1)
      have h2 : (r.drop 1).length ≤ r.length := by simp [List.length_drop]
      simpa using le_trans h1 h2
    · split
      · have h1 := skipBlockComment_rest_length (r.drop 1) line
        have h2 : (r.drop 1).length ≤ r.length := by simp [List.length_drop]
        simpa using le_trans h1 h2
      · split
        · next h39 =>
          subst h39
          exact parseCharLiteral_rest_length 39 r line
        · split
          · next h34 =>
            subst h34
            exact parseStringLiteral_rest_length 34 r line
          · split
            · next hid =>
              have hc : isIdentChar c = true := by
                simp only [Bool.or_eq_true, beq_iff_eq] at hid
                rcases hid with h | h
                · simp [isIdentChar, isalnum, h]
                · simp [isIdentChar, h]
              rw [List.dropWhile_cons_of_pos hc]
              exact length_dropWhile_le isIdentChar r
            · split
              · next hnum =>
                have hnum' : isdigit c = true ∨ (c = 46 ∧ isdigit (peekList r 0) = true) := by
                  simp only [Bool.or_eq_true, Bool.and_eq_true, beq_iff_eq] at hnum
                  tauto
                have hlen := parseNumber_entry_rest_length c r hnum'
                simp only [ne_eq]
                split
                · exact hlen
                · exact le_trans (opDelimUnknown_rest_length c _ line) hlen
              · exact opDelimUnknown_cons_rest_length c c r line

/-- The scan loop of `tokenize` (main.cpp lines 211-304): repeat
`tokenizeStep` while bytes remain. Terminates because every iteration
consumes at least one byte (`tokenizeStep_rest_length`). -/
def tokenizeLoop : List Nat → Nat → List Token
  | [], _ => []
  | c :: r, line =>
    let p := tokenizeStep c r line
    (match p.1 with
     | some t => [t]
     | none => []) ++ tokenizeLoop p.2.1 p.2.2
termination_by s _ => s.length
decreasing_by
  have := tokenizeStep_rest_length c r line
  simp only [List.length_cons]
  omega

/-- `tokenize` (main.cpp lines 205-307): scan the whole buffer starting at
line 1. -/
def tokenize (code : List Nat) : List Token :=
  tokenizeLoop code 1

theorem tokenizeLoop_cons (c : Nat) (r : List Nat) (line : Nat) :
    tokenizeLoop (c :: r) line =
      (match (tokenizeStep c r line).1 with
       | some t => [t]
       | none => []) ++ tokenizeLoop (tokenizeStep c r line).2.1 (tokenizeStep c r line).2.2 := by
  rw [tokenizeLoop]

theorem tokenizeFuel_eq (fuel : Nat) :
    ∀ (s : List Nat) (line : Nat), s.length ≤ fuel →
      tokenizeFuel fuel s line = tokenizeLoop s line := by
  induction fuel with
  | zero =>
    intro s line h
    have : s = [] := List.eq_nil_of_length_eq_zero (Nat.le_zero.mp h)
    subst this
    simp [tokenizeFuel, tokenizeLoop]
  | succ n ih =>
    intro s line h
    cases s with
    | nil => simp [tokenizeFuel, tokenizeLoop]
    | cons c r =>
      rw [tokenizeLoop_cons]
      simp only [tokenizeFuel]
      have hlen := tokenizeStep_rest_length c r line
      have hr : r.length ≤ n := by simpa using h
      rw [ih _ _ (le_trans hlen hr)]

/-- Evaluation form of `tokenize`: the buffer's length is enough fuel. -/
theorem tokenize_eval (s : List Nat) :
    tokenize s = tokenizeFuel s.length s 1 :=
  (tokenizeFuel_eq s.length s 1 le_rfl).symm

theorem charClose_line (lex s : List Nat) (line : Nat) :
    (charClose lex s line).2.2 = line := by
  unfold charClose
  cases s with
  | nil => rfl
  | cons c rest => by_cases h : c = 39 <;> simp [h]

theorem charClose_lexeme (lex s : List Nat) (line : Nat) :
    ∃ t, (charClose lex s line).1 = lex ++ t := by
  unfold charClose
  cases s with
  | nil => exact ⟨[], by simp⟩
  | cons c rest =>
    by_cases h : c = 39
    · exact ⟨[c], by simp [h]⟩
    · exact ⟨[], by simp [h]⟩

theorem parseCharLiteral_line_le (s : List Nat) (line : Nat) :
    line ≤ (parseCharLiteral s line).2.2 := by
  unfold parseCharLiteral
  cases s with
  | nil => simp
  | cons q rest =>
    cases rest with
    | nil => simp
    | cons c rest2 =>
      by_cases h92 : c = 92
      · subst h92
        cases rest2 with
        | nil => simp
        | cons d rest3 => simp [charClose_line]
      · by_cases h10 : c = 10
        · subst h10
          simp [charClose_line, h92]
        · simp [charClose_line, h92, h10]

theorem parseCharLiteral_lexeme_ne_nil (q : Nat) (rest : List Nat) (line : Nat) :
    (parseCharLiteral (q :: rest) line).1 ≠ [] := by
  unfold parseCharLiteral
  cases rest with
  | nil => simp
  | cons c rest2 =>
    by_cases h92 : c = 92
    · subst h92
      cases rest2 with
      | nil => simp
      | cons d rest3 =>
        obtain ⟨t, ht⟩ := charClose_lexeme [q, 92, d] rest3 line
        simp [ht]
    · by_cases h10 : c = 10
      · subst h10
        obtain ⟨t, ht⟩ := charClose_lexeme [q, 10] rest2 (line + 1)
        simp [ht, h92]
      · obtain ⟨t, ht⟩ := charClose_lexeme [q, c] rest2 line
        simp [ht, h92, h10]

theorem parseStringLoop_line_le (lex s : List Nat) (line : Nat) :
    line ≤ (parseStringLoop lex s line).2.2 := by
  induction lex, s, line using parseStringLoop.induct with
  | case1 lex line => simp [parseStringLoop]
  | case2 lex line => simp [parseStringLoop]
  | case3 lex line d rest3 ih =>
    rw [parseStringLoop_cons]
    norm_num
    exact ih
  | case4 lex line rest3 h =>
    rw [parseStringLoop_cons]
    norm_num
  | case5 lex line rest3 h1 h2 ih =>
    rw [parseStringLoop_cons]
    norm_num
    omega
  | case6 lex line d rest3 h1 h2 h3 ih =>
    rw [parseStringLoop_cons, if_neg h1, if_neg h2, if_neg h3]
    exact ih

theorem parseStringLoop_lexeme_length (lex s : List Nat) (line : Nat) :
    lex.length ≤ ((parseStringLoop lex s line).1).length := by
  induction lex, s, line using parseStringLoop.induct with
  | case1 lex line => simp [parseStringLoop]
  | case2 lex line => simp [parseStringLoop]
  | case3 lex line d rest3 ih =>
    rw [parseStringLoop_cons]
    norm_num
    simp only [List.length_append, List.length_cons, List.length_nil] at ih
    omega
  | case4 lex line rest3 h =>
    rw [parseStringLoop_cons]
    norm_num
  | case5 lex line rest3 h1 h2 ih =>
    rw [parseStringLoop_cons]
    norm_num
    simp only [List.length_append, List.length_cons, List.length_nil] at ih
    omega
  | case6 lex line d rest3 h1 h2 h3 ih =>
    rw [parseStringLoop_cons, if_neg h1, if_neg h2, if_neg h3]
    simp only [List.length_append, List.length_cons, List.length_nil] at ih
    omega

theorem skipBlockComment_line_le (s : List Nat) (line : Nat) :
    line ≤ (skipBlockComment s line).2 := by
  induction s, line using skipBlockComment.induct with
  | case1 line c1 c2 rest h =>
    obtain ⟨ha, hb⟩ := h
    subst ha
    subst hb
    simp [skipBlockComment]
  | case2 line c1 c2 rest h ih =>
    simp only [skipBlockComment, if_neg h]
    by_cases h10 : c1 = 10
    · rw [if_pos h10] at ih ⊢
      omega
    · rw [if_neg h10] at ih ⊢
      exact ih
  | case3 line s h =>
    cases s with
    | nil => simp [skipBlockComment]
    | cons a t =>
      cases t with
      | nil => simp [skipBlockComment]
      | cons b u => exact (h a b u rfl).elim

theorem opDelimUnknown_line (c : Nat) (rest : List Nat) (line : Nat) :
    (opDelimUnknown c rest line).2.2 = line := by
  unfold opDelimUnknown
  split
  · rfl
  · split <;> rfl

theorem opDelimUnknown_some (c : Nat) (rest : List Nat) (line : Nat) (t : Token)
    (h : (opDelimUnknown c rest line).1 = some t) :
    t.line = line ∧ t.lexeme ≠ [] ∧
      t.type ≠ TokenType.String ∧ t.type ≠ TokenType.Char := by
  unfold opDelimUnknown at h
  split at h
  · next w hw =>
    obtain rfl := (Option.some.inj h).symm
    obtain ⟨hne, _, _⟩ := tryOp_some rest w hw
    exact ⟨rfl, hne, by simp, by simp⟩
  · split at h <;>
    · obtain rfl := (Option.some.inj h).symm
      exact ⟨rfl, by simp, by simp, by simp⟩

/-- Every iteration of the scan loop leaves the line counter unchanged or
larger. -/
theorem tokenizeStep_line_le (c : Nat) (r : List Nat) (line : Nat) :
    line ≤ (tokenizeStep c r line).2.2 := by
  unfold tokenizeStep
  split
  · split <;> simp
  · split
    · simp
    · split
      · exact skipBlockComment_line_le (r.drop 1) line
      · split
        · exact parseCharLiteral_line_le _ line
        · split
          · next h34 =>
            subst h34
            show line ≤ (parseStringLiteral (34 :: r) line).2.2
            unfold parseStringLiteral
            exact parseStringLoop_line_le [34] r line
          · split
            · simp
            · split
              · simp only [ne_eq]
                split
                · simp
                · rw [opDelimUnknown_line]
              · rw [opDelimUnknown_line]

/-- Every token emitted by one iteration has: line field equal to the line
counter returned by the iteration, line at least the entry counter, a
non-empty lexeme, and — unless it is a String or Char literal token — line
exactly the entry counter. -/
theorem tokenizeStep_some (c : Nat) (r : List Nat) (line : Nat) (t : Token)
    (h : (tokenizeStep c r line).1 = some t) :
    t.line = (tokenizeStep c r line).2.2 ∧ line ≤ t.line ∧ t.lexeme ≠ [] ∧
      (t.type ≠ TokenType.String → t.type ≠ TokenType.Char → t.line = line) := by
  unfold tokenizeStep at h ⊢
  revert h
  split
  · intro h
    simp at h
  · split
    · intro h
      simp at h
    · split
      · intro h
        simp at h
      · split
        · next h39 =>
          intro h
          obtain rfl := (Option.some.inj h).symm
          subst h39
          refine ⟨rfl, parseCharLiteral_line_le _ line, parseCharLiteral_lexeme_ne_nil 39 r line, ?_⟩
          intro _ hc
          exact (hc rfl).elim
        · split
          · next h34 =>
            intro h
            obtain rfl := (Option.some.inj h).symm
            subst h34
            refine ⟨rfl, ?_, ?_, ?_⟩
            · show line ≤ (parseStringLiteral (34 :: r) line).2.2
              unfold parseStringLiteral
              exact parseStringLoop_line_le [34] r line
            · show (parseStringLiteral (34 :: r) line).1 ≠ []
              unfold parseStringLiteral
              have hle := parseStringLoop_lexeme_length [34] r line
              intro hz
              rw [hz] at hle
              simp at hle
            · intro hs _
              exact (hs rfl).elim
          · split
            · next hid =>
              intro h
              obtain rfl := (Option.some.inj h).symm
              refine ⟨rfl, le_rfl, ?_, fun _ _ => rfl⟩
              have hc : isIdentChar c = true := by
                simp only [Bool.or_eq_true, beq_iff_eq] at hid
                rcases hid with hh | hh
                · simp [isIdentChar, isalnum, hh]
                · simp [isIdentChar, hh]
              show List.takeWhile isIdentChar (c :: r) ≠ []
              rw [List.takeWhile_cons_of_pos hc]
              simp
            · split
              · simp only [ne_eq]
                split
                · next hg =>
                  intro h
                  obtain rfl := (Option.some.inj h).symm
                  exact ⟨rfl, le_rfl, hg.1, fun _ _ => rfl⟩
                · intro h
                  obtain ⟨h1, h2, h3, h4⟩ := opDelimUnknown_some _ _ _ _ h
                  rw [opDelimUnknown_line]
                  exact ⟨h1, le_of_eq h1.symm, h2, fun _ _ => h1⟩
              · intro h
                obtain ⟨h1, h2, h3, h4⟩ := opDelimUnknown_some _ _ _ _ h
                rw [opDelimUnknown_line]
                exact ⟨h1, le_of_eq h1.symm, h2, fun _ _ => h1⟩

/-- `tokenizeFuel` paired, for each emitted token, with the line counter at
the top of the iteration that emitted it — that counter is the line on which
the byte at the cursor (the token's first character) lies, since the counter
is only ever advanced past a `\n` after consuming it. -/
def tokenizeAnnFuel : Nat → List Nat → Nat → List (Token × Nat)
  | 0, _, _ => []
  | _ + 1, [], _ => []
  | fuel + 1, c :: r, line =>
    let p := tokenizeStep c r line
    (match p.1 with
     | some t => [(t, line)]
     | none => []) ++ tokenizeAnnFuel fuel p.2.1 p.2.2

/-- `tokenize`, annotated with each token's first-character line. -/
def tokenizeAnn (s : List Nat) (line : Nat) : List (Token × Nat) :=
  tokenizeAnnFuel s.length s line

theorem tokenizeAnnFuel_fst (fuel : Nat) :
    ∀ (s : List Nat) (line : Nat),
      (tokenizeAnnFuel fuel s line).map Prod.fst = tokenizeFuel fuel s line := by
  induction fuel with
  | zero => intro s line; rfl
  | succ n ih =>
    intro s line
    cases s with
    | nil => rfl
    | cons c r =>
      show ((match (tokenizeStep c r line).1 with
             | some t => [(t, line)]
             | none => []) ++ tokenizeAnnFuel n (tokenizeStep c r line).2.1
               (tokenizeStep c r line).2.2).map Prod.fst =
        (match (tokenizeStep c r line).1 with
         | some t => [t]
         | none => []) ++ tokenizeFuel n (tokenizeStep c r line).2.1
           (tokenizeStep c r line).2.2
      rw [List.map_append, ih]
      cases (tokenizeStep c r line).1 <;> rfl

/-- The annotation projects to the scanner's output. -/
theorem tokenizeAnn_fst (s : List Nat) (line : Nat) :
    (tokenizeAnn s line).map Prod.fst = tokenizeLoop s line := by
  unfold tokenizeAnn
  rw [tokenizeAnnFuel_fst, tokenizeFuel_eq s.length s line le_rfl]

/-- Number of iterations the scan loop performs on a buffer. -/
def tokenizeSteps : List Nat → Nat → Nat
  | [], _ => 0
  | c :: r, line =>
    1 + tokenizeSteps (tokenizeStep c r line).2.1 (tokenizeStep c r line).2.2
termination_by s _ => s.length
decreasing_by
  have := tokenizeStep_rest_length c r line
  simp only [List.length_cons]
  omega

theorem tokenizeSteps_le_aux (n : Nat) :
    ∀ (s : List Nat) (line : Nat), s.length ≤ n → tokenizeSteps s line ≤ s.length := by
  induction n with
  | zero =>
    intro s line h
    have hs : s = [] := List.eq_nil_of_length_eq_zero (Nat.le_zero.mp h)
    subst hs
    simp [tokenizeSteps]
  | succ n ih =>
    intro s line h
    cases s with
    | nil => simp [tokenizeSteps]
    | cons c r =>
      have hstep := tokenizeStep_rest_length c r line
      have hr : r.length ≤ n := by simpa using h
      have hrec := ih (tokenizeStep c r line).2.1 (tokenizeStep c r line).2.2
        (le_trans hstep hr)
      rw [tokenizeSteps]
      simp only [List.length_cons]
      omega

theorem tokenizeFuel_cons (n : Nat) (c : Nat) (r : List Nat) (line : Nat) :
    tokenizeFuel (n + 1) (c :: r) line =
      (match (tokenizeStep c r line).1 with
       | some t => [t]
       | none => []) ++
        tokenizeFuel n (tokenizeStep c r line).2.1 (tokenizeStep c r line).2.2 := rfl

theorem tokenizeAnnFuel_cons (n : Nat) (c : Nat) (r : List Nat) (line : Nat) :
    tokenizeAnnFuel (n + 1) (c :: r) line =
      (match (tokenizeStep c r line).1 with
       | some t => [(t, line)]
       | none => []) ++
        tokenizeAnnFuel n (tokenizeStep c r line).2.1 (tokenizeStep c r line).2.2 := rfl

/-- Every token scanned from a suffix carries a line at least the entry
counter. -/
theorem tokenizeFuel_mem_line_le (fuel : Nat) :
    ∀ (s : List Nat) (line : Nat) (t : Token),
      t ∈ tokenizeFuel fuel s line → line ≤ t.line := by
  induction fuel with
  | zero =>
    intro s line t h
    simp [tokenizeFuel] at h
  | succ n ih =>
    intro s line t h
    cases s with
    | nil => simp [tokenizeFuel] at h
    | cons c r =>
      rw [tokenizeFuel_cons] at h
      have hline := tokenizeStep_line_le c r line
      rcases List.mem_append.mp h with hm | hm
      · cases hcase : (tokenizeStep c r line).1 with
        | none => rw [hcase] at hm; simp at hm
        | some u =>
          rw [hcase] at hm
          simp at hm
          subst hm
          exact (tokenizeStep_some c r line t hcase).2.1
      · exact le_trans hline (ih _ _ t hm)

/-- Every token scanned from a suffix has a non-empty lexeme. -/
theorem tokenizeFuel_mem_lexeme_ne_nil (fuel : Nat) :
    ∀ (s : List Nat) (line : Nat) (t : Token),
      t ∈ tokenizeFuel fuel s line → t.lexeme ≠ [] := by
  induction fuel with
  | zero =>
    intro s line t h
    simp [tokenizeFuel] at h
  | succ n ih =>
    intro s line t h
    cases s with
    | nil => simp [tokenizeFuel] at h
    | cons c r =>
      rw [tokenizeFuel_cons] at h
      rcases List.mem_append.mp h with hm | hm
      · cases hcase : (tokenizeStep c r line).1 with
        | none => rw [hcase] at hm; simp at hm
        | some u =>
          rw [hcase] at hm
          simp at hm
          subst hm
          exact (tokenizeStep_some c r line t hcase).2.2.1
      · exact ih _ _ t hm

/-- Line fields are non-decreasing along the scanned token list. -/
theorem tokenizeFuel_pairwise (fuel : Nat) :
    ∀ (s : List Nat) (line : Nat),
      List.Pairwise (fun a b => a.line ≤ b.line) (tokenizeFuel fuel s line) := by
  induction fuel with
  | zero =>
    intro s line
    simp [tokenizeFuel]
  | succ n ih =>
    intro s line
    cases s with
    | nil => simp [tokenizeFuel]
    | cons c r =>
      rw [tokenizeFuel_cons]
      cases hcase : (tokenizeStep c r line).1 with
      | none => simpa using ih _ _
      | some t =>
        simp only [List.singleton_append, List.pairwise_cons]
        refine ⟨?_, ih _ _⟩
        intro u hu
        have h1 := (tokenizeStep_some c r line t hcase).1
        have h2 := tokenizeFuel_mem_line_le n _ _ u hu
        omega

/-- Each (token, entry-line) pair of the annotated scan satisfies: the entry
line bounds the token's line from below, and non-literal tokens record the
entry line exactly. -/
theorem tokenizeAnnFuel_spec (fuel : Nat) :
    ∀ (s : List Nat) (line : Nat) (t : Token) (el : Nat),
      (t, el) ∈ tokenizeAnnFuel fuel s line →
        el ≤ t.line ∧
          (t.type ≠ TokenType.String → t.type ≠ TokenType.Char → t.line = el) := by
  induction fuel with
  | zero =>
    intro s line t el h
    simp [tokenizeAnnFuel] at h
  | succ n ih =>
    intro s line t el h
    cases s with
    | nil => simp [tokenizeAnnFuel] at h
    | cons c r =>
      rw [tokenizeAnnFuel_cons] at h
      rcases List.mem_append.mp h with hm | hm
      · cases hcase : (tokenizeStep c r line).1 with
        | none => rw [hcase] at hm; simp at hm
        | some u =>
          rw [hcase] at hm
          simp at hm
          obtain ⟨rfl, rfl⟩ := hm
          obtain ⟨_, h2, _, h4⟩ := tokenizeStep_some _ _ _ _ hcase
          exact ⟨h2, h4⟩
      · exact ih _ _ t el hm

/-- Dispatch facts for an identifier-start byte: none of the earlier scanner
branches fires, and the identifier branch condition holds. -/
theorem identStart_facts (c : Nat) (h : isalpha c = true ∨ c = 95) :
    isspace c = false ∧ c ≠ 47 ∧ c ≠ 39 ∧ c ≠ 34 ∧ (isalpha c || c == 95) = true := by
  rcases h with h | h
  · have h' := h
    simp only [isalpha, decide_eq_true_eq] at h'
    refine ⟨?_, ?_, ?_, ?_, ?_⟩
    · simp only [isspace, decide_eq_false_iff_not]
      omega
    · omega
    · omega
    · omega
    · simp [h]
  · subst h
    decide

/-- The identifier/keyword branch (main.cpp lines 255-264): a letter or
underscore at the cursor yields one token whose lexeme is the maximal
alphanumeric/underscore run, and the cursor moves past it. -/
theorem tokenizeStep_ident (c : Nat) (r : List Nat) (line : Nat)
    (h : isalpha c = true ∨ c = 95) :
    tokenizeStep c r line =
      (some { lexeme := (c :: r).takeWhile isIdentChar,
              type := if isKeyword ((c :: r).takeWhile isIdentChar) then TokenType.Keyword
                      else TokenType.Identifier,
              line := line },
       (c :: r).dropWhile isIdentChar, line) := by
  obtain ⟨hs, h47, h39, h34, hid⟩ := identStart_facts c h
  unfold tokenizeStep
  rw [if_neg (by simp [hs]), if_neg (fun hh => h47 hh.1), if_neg (fun hh => h47 hh.1),
    if_neg h39, if_neg h34, if_pos hid]

/-- Dispatch facts for a numeric-branch entry byte. -/
theorem numStart_facts (c : Nat) (r : List Nat)
    (h : isdigit c = true ∨ (c = 46 ∧ isdigit (peekList r 0) = true)) :
    isspace c = false ∧ c ≠ 47 ∧ c ≠ 39 ∧ c ≠ 34 ∧ (isalpha c || c == 95) = false ∧
      (isdigit c || c == 46 && isdigit (peekList r 0)) = true := by
  rcases h with h | ⟨h46, hp⟩
  · have h' := h
    simp only [isdigit, decide_eq_true_eq] at h'
    refine ⟨?_, ?_, ?_, ?_, ?_, ?_⟩
    · simp only [isspace, decide_eq_false_iff_not]
      omega
    · omega
    · omega
    · omega
    · have ha : isalpha c = false := by
        simp only [isalpha, decide_eq_false_iff_not]
        omega
      have hb : (c == 95) = false := by
        simp only [beq_eq_false_iff_ne, ne_eq]
        omega
      simp [ha, hb]
    · simp [h]
  · subst h46
    refine ⟨by decide, by decide, by decide, by decide, by decide, ?_⟩
    have h46 : isdigit 46 = false := by decide
    simp [h46, hp]

/-- The lexeme built by the exponent block extends the lexeme passed in. -/
theorem parseNumberExp_lexeme (lex s2 : List Nat) :
    ∃ t, (parseNumberExp lex s2).1 = lex ++ t := by
  cases s2 with
  | nil => exact ⟨[], by simp [parseNumberExp]⟩
  | cons c r =>
    by_cases hm : c = 101 ∨ c = 69
    · cases r with
      | nil =>
        refine ⟨[], ?_⟩
        simp [parseNumberExp, if_pos hm, List.dropLast_concat]
      | cons d rr =>
        by_cases hs : d = 43 ∨ d = 45
        · by_cases he : rr.takeWhile isdigit = []
          · refine ⟨[c], ?_⟩
            simp only [parseNumberExp, if_pos hm, if_pos hs, he]
            norm_num
            rw [List.dropLast_append_cons]
            simp
          · refine ⟨[c, d] ++ rr.takeWhile isdigit, ?_⟩
            simp only [parseNumberExp, if_pos hm, if_pos hs, if_neg he]
            simp [List.append_assoc]
        · by_cases he : (d :: rr).takeWhile isdigit = []
          · refine ⟨[], ?_⟩
            simp only [parseNumberExp, if_pos hm, if_neg hs, he]
            norm_num
          · refine ⟨[c] ++ (d :: rr).takeWhile isdigit, ?_⟩
            simp only [parseNumberExp, if_pos hm, if_neg hs, if_neg he]
            simp [List.append_assoc]
    · exact ⟨[], by simp [parseNumberExp, hm]⟩

/-- The lexeme built by the fractional block extends the lexeme passed in. -/
theorem parseNumberFrac_lexeme (lex s1 : List Nat) :
    ∃ t, (parseNumberFrac lex s1).1 = lex ++ t := by
  cases s1 with
  | nil =>
    simp only [parseNumberFrac]
    exact parseNumberExp_lexeme lex []
  | cons c r =>
    by_cases h : c = 46
    · simp only [parseNumberFrac, if_pos h]
      obtain ⟨t, ht⟩ := parseNumberExp_lexeme (lex ++ [c] ++ r.takeWhile isdigit)
        (r.dropWhile isdigit)
      exact ⟨[c] ++ r.takeWhile isdigit ++ t, by rw [ht]; simp [List.append_assoc]⟩
    · simp only [parseNumberFrac, if_neg h]
      exact parseNumberExp_lexeme lex (c :: r)

/-- Entering the numeric branch, the produced lexeme is non-empty and
contains at least one digit. -/
theorem parseNumber_entry_lexeme (c : Nat) (r : List Nat)
    (h : isdigit c = true ∨ (c = 46 ∧ isdigit (peekList r 0) = true)) :
    (parseNumber (c :: r)).1 ≠ [] ∧ (parseNumber (c :: r)).1.any isdigit = true := by
  rcases h with hd | ⟨hc, hp⟩
  · unfold parseNumber
    rw [List.takeWhile_cons_of_pos hd, List.dropWhile_cons_of_pos hd]
    obtain ⟨t, ht⟩ := parseNumberFrac_lexeme (c :: r.takeWhile isdigit) (r.dropWhile isdigit)
    rw [ht]
    constructor
    · simp
    · simp [hd]
  · subst hc
    have h46 : isdigit 46 = false := by decide
    cases r with
    | nil => simp [peekList, isdigit] at hp
    | cons x r2 =>
      have hx : isdigit x = true := by simpa [peekList] using hp
      unfold parseNumber
      rw [List.takeWhile_cons_of_neg (by simp [h46]), List.dropWhile_cons_of_neg (by simp [h46])]
      show (parseNumberFrac [] (46 :: x :: r2)).1 ≠ [] ∧
        (parseNumberFrac [] (46 :: x :: r2)).1.any isdigit = true
      simp only [parseNumberFrac]
      norm_num
      rw [List.takeWhile_cons_of_pos hx, List.dropWhile_cons_of_pos hx]
      obtain ⟨t, ht⟩ := parseNumberExp_lexeme (46 :: x :: r2.takeWhile isdigit)
        (r2.dropWhile isdigit)
      rw [ht]
      constructor
      · simp
      · exact ⟨x, by simp, hx⟩

/-- The numeric branch of the scanner (main.cpp lines 266-274), under its
entry condition: `parseNumber` runs and a Number token is emitted. -/
theorem tokenizeStep_number (c : Nat) (r : List Nat) (line : Nat)
    (h : isdigit c = true ∨ (c = 46 ∧ isdigit (peekList r 0) = true)) :
    tokenizeStep c r line =
      (some { lexeme := (parseNumber (c :: r)).1, type := TokenType.Number, line := line },
       (parseNumber (c :: r)).2, line) := by
  obtain ⟨hs, h47, h39, h34, hna, hnum⟩ := numStart_facts c r h
  obtain ⟨hne, hany⟩ := parseNumber_entry_lexeme c r h
  unfold tokenizeStep
  rw [if_neg (by simp [hs]), if_neg (fun hh => h47 hh.1), if_neg (fun hh => h47 hh.1),
    if_neg h39, if_neg h34, if_neg (by simp [hna]), if_pos hnum]
  show (if (parseNumber (c :: r)).1 ≠ [] ∧ (parseNumber (c :: r)).1.any isdigit = true then
      (some { lexeme := (parseNumber (c :: r)).1, type := TokenType.Number, line := line },
       (parseNumber (c :: r)).2, line)
    else opDelimUnknown c (parseNumber (c :: r)).2 line) =
    (some { lexeme := (parseNumber (c :: r)).1, type := TokenType.Number, line := line },
     (parseNumber (c :: r)).2, line)
  rw [if_pos ⟨hne, hany⟩]

theorem tokenizeLoop_nil (line : Nat) : tokenizeLoop [] line = [] := by
  rw [tokenizeLoop]

/-- Longest-match property of the operator search: a hit is an operator, is
the buffer prefix of its own length, and no longer window (up to the maximal
window length 3) is an operator. -/
theorem tryOp_longest (rest w : List Nat) (h : tryOp rest = some w) :
    isOperatorString w = true ∧ w = rest.take w.length ∧
      ∀ len : Nat, w.length < len → len ≤ 3 →
        isOperatorString (opWindow rest len) = false := by
  obtain ⟨hne, hle3, htake⟩ := tryOp_some rest w h
  unfold tryOp at h
  by_cases h3 : opWindow rest 3 ≠ [] ∧ isOperatorString (opWindow rest 3) = true
  · rw [if_pos h3] at h
    obtain ⟨_, _, hl⟩ := opWindow_ne_nil rest 3 h3.1
    cases h
    refine ⟨h3.2, htake, ?_⟩
    intro len h1 h2
    omega
  · rw [if_neg h3] at h
    have hw3 : isOperatorString (opWindow rest 3) = false := by
      by_cases hz : opWindow rest 3 = []
      · rw [hz]
        decide
      · by_cases hi : isOperatorString (opWindow rest 3) = true
        · exact absurd ⟨hz, hi⟩ h3
        · simpa using hi
    by_cases h2c : opWindow rest 2 ≠ [] ∧ isOperatorString (opWindow rest 2) = true
    · rw [if_pos h2c] at h
      obtain ⟨_, _, hl⟩ := opWindow_ne_nil rest 2 h2c.1
      cases h
      refine ⟨h2c.2, htake, ?_⟩
      intro len hgt hle
      have hlen3 : len = 3 := by omega
      subst hlen3
      exact hw3
    · rw [if_neg h2c] at h
      have hw2 : isOperatorString (opWindow rest 2) = false := by
        by_cases hz : opWindow rest 2 = []
        · rw [hz]
          decide
        · by_cases hi : isOperatorString (opWindow rest 2) = true
          · exact absurd ⟨hz, hi⟩ h2c
          · simpa using hi
      by_cases h1c : opWindow rest 1 ≠ [] ∧ isOperatorString (opWindow rest 1) = true
      · rw [if_pos h1c] at h
        obtain ⟨_, _, hl⟩ := opWindow_ne_nil rest 1 h1c.1
        cases h
        refine ⟨h1c.2, htake, ?_⟩
        intro len hgt hle
        have hb : 2 ≤ len := by omega
        interval_cases len
        · exact hw2
        · exact hw3
      · rw [if_neg h1c] at h
        cases h

/-- A successful operator match is emitted as one Operator token and the
cursor advances by its length (main.cpp lines 285-290). -/
theorem opDelimUnknown_operator (c : Nat) (rest : List Nat) (line : Nat)
    (w : List Nat) (h : tryOp rest = some w) :
    opDelimUnknown c rest line =
      (some { lexeme := w, type := TokenType.Operator, line := line },
       rest.drop w.length, line) := by
  unfold opDelimUnknown
  rw [h]

/-- `s` contains the adjacent byte pair `*/` (42, 47). -/
def hasStarSlash : List Nat → Bool
  | c1 :: c2 :: rest => (c1 == 42 && c2 == 47) || hasStarSlash (c2 :: rest)
  | _ => false

/-- On a buffer with no closing marker, the block-comment skip loop stops at
the last byte, leaving exactly that byte, and counts every newline before
it. -/
theorem skipBlockComment_no_close (s : List Nat) (line : Nat) :
    ∀ x : Nat, hasStarSlash s = false → s.getLast? = some x →
      skipBlockComment s line = ([x], line + s.dropLast.count 10) := by
  induction s, line using skipBlockComment.induct with
  | case1 line c1 c2 rest h =>
    intro x hs hx
    obtain ⟨ha, hb⟩ := h
    subst ha
    subst hb
    simp [hasStarSlash] at hs
  | case2 line c1 c2 rest h ih =>
    intro x hs hx
    have hs2 : hasStarSlash (c2 :: rest) = false := by
      simp only [hasStarSlash, Bool.or_eq_false_iff] at hs
      exact hs.2
    have hx2 : (c2 :: rest).getLast? = some x := by
      rw [List.getLast?_cons_cons] at hx
      exact hx
    simp only [skipBlockComment, if_neg h]
    rw [ih x hs2 hx2]
    have hdl : (c1 :: c2 :: rest).dropLast = c1 :: (c2 :: rest).dropLast := rfl
    rw [hdl]
    by_cases h10 : c1 = 10
    · subst h10
      simp only [List.count_cons, Prod.mk.injEq, true_and]
      norm_num
      omega
    · simp only [List.count_cons, Prod.mk.injEq, true_and]
      rw [if_neg h10]
      simp [h10]
  | case3 line s h =>
    intro x hs hx
    cases s with
    | nil => simp at hx
    | cons a t =>
      cases t with
      | nil =>
        simp at hx
        subst hx
        simp [skipBlockComment]
      | cons b u => exact (h a b u rfl).elim

/-- The block-comment branch of one scanner iteration. -/
theorem tokenizeStep_blockComment (r : List Nat) (line : Nat)
    (hpeek : peekList r 0 = 42) :
    tokenizeStep 47 r line =
      (none, (skipBlockComment (r.drop 1) line).1,
       (skipBlockComment (r.drop 1) line).2) := by
  unfold tokenizeStep
  rw [if_neg (by decide), if_neg (fun hh => by simp [hpeek] at hh), if_pos ⟨rfl, hpeek⟩]

/-- C1: the spec claims that on input `1e+z` the Number token is `1` (the
speculative exponent marker and sign both rolled back). The code instead
erases only the last pushed character (the sign) from the lexeme while the
cursor returns before the marker: the Number token is `1e`, and `e` is
scanned again as an Identifier. This theorem evaluates the scanner at the
failing input, exhibiting the divergence. -/
theorem exponent_rollback_behavior :
    tokenize (str "1e+z") =
      [{ lexeme := str "1e", type := TokenType.Number, line := 1 },
       { lexeme := str "e", type := TokenType.Identifier, line := 1 },
       { lexeme := str "+", type := TokenType.Operator, line := 1 },
       { lexeme := str "z", type := TokenType.Identifier, line := 1 }] ∧
      parseNumber (str "1e+z") = (str "1e", str "e+z") := by
  constructor
  · rw [tokenize_eval]
    decide
  · decide

/-- C2: the spec claims the emitted lexemes plus skipped whitespace/comment
spans reconstruct the input exactly, each byte covered once. On `1e+z`
(which contains no whitespace and no `/`, so nothing is skipped) the
concatenated lexemes are `1ee+z`: the byte `e` is covered both by the Number
lexeme `1e` and by the Identifier `e`, because the exponent rollback moves
the cursor back before the marker without removing the marker from the
lexeme. -/
theorem coverage_violation :
    ((tokenize (str "1e+z")).map Token.lexeme).flatten = str "1ee+z" ∧
      str "1ee+z" ≠ str "1e+z" ∧
      (str "1e+z").all (fun b => !isspace b && b != 47) = true := by
  refine ⟨?_, by decide, by decide⟩
  rw [tokenize_eval]
  decide

/-- C3 (counterexample): the claim says an unterminated block comment is
skipped to end of input with no token emitted for any of its characters,
including the final one. On input `/*x` the skip loop stops with one byte
left and the scanner emits `x` as an Identifier token. -/
theorem unterminated_comment_counterexample :
    tokenize (str "/*x") =
        [{ lexeme := str "x", type := TokenType.Identifier, line := 1 }] ∧
      tokenize (str "/*x") ≠ [] := by
  constructor
  · rw [tokenize_eval]
    decide
  · rw [tokenize_eval]
    decide

/-- C3 (amended): on input `/*` followed by a buffer `s` with no `*/` pair,
the scanner skips from the opener up to (but not including) the final byte
of input, counting the newlines it passed, and re-dispatches that final byte
through the normal rules; when the input ends right after the opener,
nothing at all is emitted. -/
theorem unterminated_block_comment_amended (s : List Nat) (line : Nat) (x : Nat)
    (hs : hasStarSlash s = false) (hx : s.getLast? = some x) :
    tokenizeLoop (47 :: 42 :: s) line =
        tokenizeLoop [x] (line + s.dropLast.count 10) ∧
      tokenizeLoop [47, 42] line = [] := by
  constructor
  · rw [tokenizeLoop_cons, tokenizeStep_blockComment (42 :: s) line rfl]
    have hdrop : (42 :: s).drop 1 = s := rfl
    rw [hdrop, skipBlockComment_no_close s line x hs hx]
    simp
  · rw [tokenizeLoop_cons, tokenizeStep_blockComment [42] line rfl]
    have hdrop : ([42] : List Nat).drop 1 = [] := rfl
    rw [hdrop]
    have hskip : skipBlockComment [] line = ([], line) := rfl
    rw [hskip]
    simp [tokenizeLoop_nil]

theorem unterminated_block_comment_amended_witness :
    tokenizeLoop (47 :: 42 :: [120]) 1 =
        tokenizeLoop [120] (1 + ([120] : List Nat).dropLast.count 10) ∧
      tokenizeLoop [47, 42] 1 = [] :=
  unterminated_block_comment_amended [120] 1 120 (by decide) (by decide)

/-- C4 (counterexample): the claim says a token's line field is the line on
which its first character was scanned. For the string literal `"a\nb"`
(opening on line 1, containing a newline) the emitted String token records
line 2 — the line counter after the literal — while the annotated scan shows
the iteration began on line 1. -/
theorem literal_line_counterexample :
    tokenizeAnn (str "\"a\nb\"") 1 =
        [({ lexeme := str "\"a\nb\"", type := TokenType.String, line := 2 }, 1)] ∧
      (2 : Nat) ≠ 1 := by
  constructor
  · decide
  · decide

/-- C4 (amended): the annotated scan projects to the scanner's output, and
for each emitted token the line at the iteration that emitted it (the line
of the token's first character) bounds the token's line field from below;
tokens that are not String or Char literals record exactly that entry line,
while literal tokens record the counter after the literal (its end line). -/
theorem token_line_field (s : List Nat) (line0 : Nat) (t : Token) (el : Nat)
    (h : (t, el) ∈ tokenizeAnn s line0) :
    (tokenizeAnn s line0).map Prod.fst = tokenizeLoop s line0 ∧
      el ≤ t.line ∧
      (t.type ≠ TokenType.String → t.type ≠ TokenType.Char → t.line = el) := by
  refine ⟨tokenizeAnn_fst s line0, ?_, ?_⟩
  · exact (tokenizeAnnFuel_spec s.length s line0 t el h).1
  · exact (tokenizeAnnFuel_spec s.length s line0 t el h).2

theorem token_line_field_witness :
    1 ≤ ({ lexeme := [120], type := TokenType.Identifier, line := 1 } : Token).line :=
  (token_line_field [120] 1 { lexeme := [120], type := TokenType.Identifier, line := 1 } 1
    (by decide)).2.1

/-- C5 (counterexample): the claim speaks of a fixed 25-word keyword set, but
the table in `isKeyword` has 26 distinct members. -/
theorem keyword_table_size :
    keywordList.length = 26 ∧ keywordList.Nodup := by
  constructor
  · decide
  · decide

/-- C5 (amended): at a letter or underscore the scanner emits exactly one
token whose lexeme is the maximal alphanumeric/underscore run, classified
Keyword iff that run is exact-string-equal to a member of the fixed 26-word
keyword table, and Identifier otherwise; scanning resumes after the run. -/
theorem keyword_identifier_partition (c : Nat) (r : List Nat) (line : Nat)
    (h : isalpha c = true ∨ c = 95) :
    tokenizeLoop (c :: r) line =
      { lexeme := (c :: r).takeWhile isIdentChar,
        type := if (c :: r).takeWhile isIdentChar ∈ keywordList then TokenType.Keyword
                else TokenType.Identifier,
        line := line } :: tokenizeLoop ((c :: r).dropWhile isIdentChar) line := by
  rw [tokenizeLoop_cons, tokenizeStep_ident c r line h]
  simp [isKeyword]

theorem keyword_identifier_partition_witness :
    tokenizeLoop [120] 1 =
      { lexeme := [120].takeWhile isIdentChar,
        type := if [120].takeWhile isIdentChar ∈ keywordList then TokenType.Keyword
                else TokenType.Identifier,
        line := 1 } :: tokenizeLoop ([120].dropWhile isIdentChar) 1 :=
  keyword_identifier_partition 120 [] 1 (Or.inl (by decide))

/-- C6: operator recognition is longest-match. On input `<<=x` the emitted
operator token is the 3-character `<<=`; in general a successful lookup
returns an operator that is the buffer prefix of its own length, no window
of greater length up to 3 is an operator, and the scanner emits the match as
one Operator token advancing the cursor by its length. -/
theorem operator_longest_match :
    tokenize (str "<<=x") =
        [{ lexeme := str "<<=", type := TokenType.Operator, line := 1 },
         { lexeme := str "x", type := TokenType.Identifier, line := 1 }] ∧
      (∀ (rest w : List Nat), tryOp rest = some w →
        isOperatorString w = true ∧ w = rest.take w.length ∧
          ∀ len : Nat, w.length < len → len ≤ 3 →
            isOperatorString (opWindow rest len) = false) ∧
      ∀ (c : Nat) (rest : List Nat) (line : Nat) (w : List Nat),
        tryOp rest = some w →
          opDelimUnknown c rest line =
            (some { lexeme := w, type := TokenType.Operator, line := line },
             rest.drop w.length, line) := by
  refine ⟨?_, tryOp_longest, opDelimUnknown_operator⟩
  rw [tokenize_eval]
  decide

theorem operator_longest_match_witness :
    isOperatorString (str "<<=") = true ∧
      str "<<=" = (str "<<=x").take (str "<<=").length :=
  ⟨(operator_longest_match.2.1 (str "<<=x") (str "<<=") (by decide)).1,
   (operator_longest_match.2.1 (str "<<=x") (str "<<=") (by decide)).2.1⟩

/-- C7: the scan terminates on every byte sequence and the number of
main-loop iterations is bounded by the input length: every iteration
strictly shrinks the remaining buffer (`tokenizeLoop` is total by exactly
this argument), and the iteration count is at most the buffer length. -/
theorem scan_progress_bounded :
    (∀ (c : Nat) (r : List Nat) (line : Nat),
        ((tokenizeStep c r line).2.1).length < (c :: r).length) ∧
      ∀ (s : List Nat) (line : Nat), tokenizeSteps s line ≤ s.length := by
  constructor
  · intro c r line
    have h := tokenizeStep_rest_length c r line
    simp only [List.length_cons]
    omega
  · intro s line
    exact tokenizeSteps_le_aux s.length s line le_rfl

/-- C8: line fields are monotonically non-decreasing across the emitted
token sequence: any earlier token's line is at most any later token's. -/
theorem token_lines_monotone (s : List Nat) :
    List.Pairwise (fun a b => a.line ≤ b.line) (tokenize s) := by
  unfold tokenize
  rw [← tokenizeFuel_eq s.length s 1 le_rfl]
  exact tokenizeFuel_pairwise s.length s 1

/-- C9: every emitted token has a non-empty lexeme — in fact with no
exception at all, which in particular satisfies the claim's allowance for
malformed-literal edge cases. -/
theorem token_lexeme_nonempty (s : List Nat) (t : Token) (h : t ∈ tokenize s) :
    t.lexeme ≠ [] := by
  rw [tokenize_eval] at h
  exact tokenizeFuel_mem_lexeme_ne_nil s.length s 1 t h

theorem token_lexeme_nonempty_witness :
    ({ lexeme := [120], type := TokenType.Identifier, line := 1 } : Token).lexeme ≠ [] :=
  token_lexeme_nonempty [120] { lexeme := [120], type := TokenType.Identifier, line := 1 }
    (by rw [tokenize_eval]; decide)

/-- C10: whenever the main loop enters the numeric branch (digit at the
cursor, or `.` immediately followed by a digit), `parseNumber` returns a
non-empty lexeme containing at least one digit, so a Number token is always
emitted from that branch and the digit-less fall-through is unreachable. -/
theorem number_branch_emits (c : Nat) (r : List Nat) (line : Nat)
    (h : isdigit c = true ∨ (c = 46 ∧ isdigit (peekList r 0) = true)) :
    (parseNumber (c :: r)).1 ≠ [] ∧ (parseNumber (c :: r)).1.any isdigit = true ∧
      tokenizeLoop (c :: r) line =
        { lexeme := (parseNumber (c :: r)).1, type := TokenType.Number, line := line }
          :: tokenizeLoop (parseNumber (c :: r)).2 line := by
  obtain ⟨h1, h2⟩ := parseNumber_entry_lexeme c r h
  refine ⟨h1, h2, ?_⟩
  rw [tokenizeLoop_cons, tokenizeStep_number c r line h]
  rfl

theorem number_branch_emits_witness :
    (parseNumber [49]).1 ≠ [] ∧ (parseNumber [49]).1.any isdigit = true ∧
      tokenizeLoop [49] 1 =
        { lexeme := (parseNumber [49]).1, type := TokenType.Number, line := 1 }
          :: tokenizeLoop (parseNumber [49]).2 1 :=
  number_branch_emits 49 [] 1 (Or.inl (by decide))

end Tokenizer
